import Mathlib

/-!
Verification of the training orchestrator in `src/train.py` of the proSR
repository.  Python dictionaries of evaluation metrics are embedded as
association lists over `String` keys with rational values (Python 3 dicts
preserve insertion order, which the association list keeps).  Wall-clock
readings from `time()` are abstracted as rational timestamps supplied as
inputs.  Side effects of the loop body (checkpoint saves, log writes,
learning-rate mutation, gradient-mode switches) are recorded as a trace of
events; exceptions are modelled by an `Option Err` outcome that
short-circuits the rest of the loop body, mirroring Python propagation.
-/

set_option autoImplicit false

namespace ProSR

/-- A metrics dictionary (for example `trainer.best_eval` or the snapshot
returned by `get_current_eval_result`): keys in insertion order, rational
values standing for the Python floats. -/
abbrev Metrics := List (String × ℚ)

/-- Dictionary access `d[k]`, returning `none` when the key is absent. -/
def Metrics.find (m : Metrics) (k : String) : Option ℚ :=
  List.lookup k m

/-- The key list of a metrics dictionary, in insertion order. -/
def Metrics.keys (m : Metrics) : List String :=
  m.map Prod.fst

/-- Lines 190-196 of `src/train.py`: the list comprehension computing the
keys used in the best-checkpoint tag.  When more than one metric is
tracked, keep the keys `k` of `best_eval` with
`best_eval[k] == eval_result[k]`; otherwise take all keys of `best_eval`. -/
def best_key (best_eval eval_result : Metrics) : List String :=
  if 1 < best_eval.length then
    (best_eval.filter fun kv => eval_result.find kv.1 == some kv.2).map Prod.fst
  else
    best_eval.keys

/-- Line 197 of `src/train.py`: the checkpoint tag
`'best_' + '_'.join(best_key)`. -/
def best_tag (best_eval eval_result : Metrics) : String :=
  "best_" ++ "_".intercalate (best_key best_eval eval_result)

/-- The trainer-held state that the orchestrator reads and writes:
`best` is `none` before the first evaluation seeds it, and otherwise holds
`(best_epoch, best_eval)`; `lr` is the current learning rate. -/
structure TrainerState where
  best : Option (ℤ × Metrics)
  lr : ℚ
  deriving DecidableEq

/-- The `best_epoch` field read by the loop (`0` before the first
evaluation seeds it, matching a freshly constructed trainer). -/
def bestEpochOf (st : TrainerState) : ℤ :=
  match st.best with
  | none => 0
  | some p => p.1

/-- The `best_eval` dictionary read by the loop (empty before seeding). -/
def bestEvalOf (st : TrainerState) : Metrics :=
  match st.best with
  | none => []
  | some p => p.2

/-- Modelled from the spec: the improvement test inside
`update_best_eval_result` of `CurriculumLearningTrainer`
(`prosr.models.trainer`, not included under `src/`).  A metric improves
when its snapshot value is strictly better than the stored best value;
the direction fixed by configuration for the tracked metrics (psnr, ssim)
is higher-is-better. -/
def improvedAny (best_eval snapshot : Metrics) : Bool :=
  best_eval.any fun kv =>
    match snapshot.find kv.1 with
    | some v => kv.2 < v
    | none => false

/-- Modelled from the spec: `update_best_eval_result` of
`CurriculumLearningTrainer` (`prosr.models.trainer`, not included under
`src/`).  The very first evaluation establishes `best_eval` and
`best_epoch` unconditionally; afterwards, if any tracked metric strictly
improves, `best_epoch` is set to the current epoch and all entries of
`best_eval` are overwritten with the new snapshot values, not just the
improved ones; if no metric improves, nothing changes. -/
def update_best_eval_result (st : TrainerState) (epoch : ℤ) (snapshot : Metrics) :
    TrainerState :=
  match st.best with
  | none => { st with best := some (epoch, snapshot) }
  | some p =>
      if improvedAny p.2 snapshot then { st with best := some (epoch, snapshot) }
      else st

/-- Lines 181 and 189-197 of `src/train.py`: run the best-model update for
this epoch, then, when this epoch became the best one, produce the tag of
the best checkpoint written by `trainer.save`. -/
def evalDecision (st : TrainerState) (epoch : ℤ) (snapshot : Metrics) :
    TrainerState × Option String :=
  let st' := update_best_eval_result st epoch snapshot
  if bestEpochOf st' = epoch then
    (st', some (best_tag (bestEvalOf st') snapshot))
  else
    (st', none)

/-- A concrete prior trainer state used in the tie-break scenarios of the
spec: best epoch 3 with best values psnr 29.0, ssim 0.85. -/
def priorState : TrainerState :=
  { best := some (3, [("psnr", 29), ("ssim", mkRat 17 20)]), lr := 1 }

/-- An observable effect of one pass of the epoch loop body
(`src/train.py` lines 148-204). -/
inductive Event where
  | setInput
  | forward
  | optimizeParameters
  | logErrors (epoch : ℕ) (totalSteps : ℕ) (t : ℤ)
  | savePeriodic (n : ℕ)
  | setEval
  | resetEvalResult
  | evaluateSample
  | updateBest
  | printEval
  | infoBest
  | saveBest (keys : List String)
  | setTrain
  | saveLastLR (lr : ℚ)
  | updateLearningRate
  | gradDisable
  | gradRestore
  deriving DecidableEq

/-- An exception propagating out of the loop body: a failure raised by
`trainer.evaluate` on a validation sample, or the attribute error raised
by reading a configuration attribute that does not exist. -/
inductive Err where
  | evalFailure
  | attributeError (name : String)
  deriving DecidableEq

/-- The external inputs consumed by one pass of the epoch loop body:
the `time()` reading taken at line 150 (`iter_start_time`), the `time()`
reading available at each training batch, whether each validation-sample
evaluation returns normally, the evaluation snapshot, and the result of
reading `args.eval_dataset` (`some` when the configuration defines the
attribute, `none` when it does not). -/
structure EpochInput where
  iterStart : ℤ
  batchTimes : List ℤ
  samples : List Bool
  snapshot : Metrics
  evalDataset : Option String
  deriving DecidableEq

/-- The outcome of one pass of the epoch loop body: the event trace, the
trainer state afterwards, the final `total_steps`, and the exception that
propagated, if any. -/
structure EpochResult where
  trace : List Event
  state : TrainerState
  totalSteps : ℕ
  err : Option Err
  deriving DecidableEq

/-- Lines 151-161 of `src/train.py`: the batch loop of one epoch.  Each
batch feeds the model and steps the optimizer, then `total_steps` is
incremented; when it is divisible by 100 the accumulated errors are
logged together with `time() - iter_start_time`.  Returns the events and
the final `total_steps`. -/
def batchLoop (epoch : ℕ) (iterStart : ℤ) : List ℤ → ℕ → List Event × ℕ
  | [], steps => ([], steps)
  | tNow :: rest, steps =>
      let logPart :=
        if (steps + 1) % 100 = 0 then
          [Event.logErrors epoch (steps + 1) (tNow - iterStart)]
        else []
      let r := batchLoop epoch iterStart rest (steps + 1)
      (Event.setInput :: Event.forward :: Event.optimizeParameters :: (logPart ++ r.1),
        r.2)

/-- Lines 174-176 of `src/train.py`: the per-sample evaluation loop.
Each list entry tells whether `trainer.evaluate` returns normally on that
sample; a raising sample aborts the loop.  Returns the events and whether
the loop completed. -/
def evalLoop : List Bool → List Event × Bool
  | [] => ([], true)
  | true :: rest =>
      let r := evalLoop rest
      (Event.setInput :: Event.evaluateSample :: r.1, r.2)
  | false :: _ => ([Event.setInput], false)

/-- Lines 170-199 of `src/train.py`: the body of the `torch.no_grad()`
block.  On a sample failure the exception propagates; otherwise the
snapshot is handed to `update_best_eval_result`, the summary print reads
`args.eval_dataset` (raising an attribute error when the configuration
does not define it), the best-so-far line is logged, and when this epoch
became the best one a `best_`-tagged checkpoint is saved before the
trainer returns to train mode. -/
def evalBody (epoch : ℕ) (st : TrainerState) (inp : EpochInput) :
    List Event × TrainerState × Option Err :=
  let lp := evalLoop inp.samples
  let pre := Event.setEval :: Event.resetEvalResult :: lp.1
  if lp.2 then
    let st' := update_best_eval_result st (epoch : ℤ) inp.snapshot
    match inp.evalDataset with
    | none =>
        (pre ++ [Event.updateBest], st', some (Err.attributeError "eval_dataset"))
    | some _ =>
        let saves :=
          if bestEpochOf st' = (epoch : ℤ) then
            [Event.saveBest (best_key (bestEvalOf st') inp.snapshot)]
          else []
        (pre ++ [Event.updateBest, Event.printEval, Event.infoBest] ++ saves ++
            [Event.setTrain],
          st', none)
  else
    (pre, st, some Err.evalFailure)

/-- The `with torch.no_grad():` context manager opened at line 169:
gradient tracking is disabled on entry and restored on exit on every
path, also when the body raises, before the exception continues to
propagate (the semantics Python guarantees for a `with` statement). -/
def withNoGrad (body : List Event × TrainerState × Option Err) :
    List Event × TrainerState × Option Err :=
  (Event.gradDisable :: body.1 ++ [Event.gradRestore], body.2.1, body.2.2)

/-- Lines 148-204 of `src/train.py`: one pass of the epoch loop body.
`patience` is `args.train.lr_schedule_patience` and `decay` abstracts the
learning-rate change applied by `trainer.update_learning_rate()`.  The
batch loop runs; the unconditional periodic checkpoint is taken when
`(epoch + 1) % 10 == 0`; the evaluation block runs under the no-gradient
scope; afterwards, when no exception propagated, the learning-rate
controller saves a `lastlr_`-tagged checkpoint carrying the current
learning rate and then decays it, exactly when
`epoch - best_epoch > patience`. -/
def epochStep (patience : ℤ) (decay : ℚ → ℚ) (epoch : ℕ) (st : TrainerState)
    (steps : ℕ) (inp : EpochInput) : EpochResult :=
  let bl := batchLoop epoch inp.iterStart inp.batchTimes steps
  let periodic :=
    if (epoch + 1) % 10 = 0 then [Event.savePeriodic (epoch + 1)] else []
  let ev := withNoGrad (evalBody epoch st inp)
  match ev.2.2 with
  | some e => ⟨bl.1 ++ periodic ++ ev.1, ev.2.1, bl.2, some e⟩
  | none =>
      let st' := ev.2.1
      if patience < (epoch : ℤ) - bestEpochOf st' then
        ⟨bl.1 ++ periodic ++ ev.1 ++
            [Event.saveLastLR st'.lr, Event.updateLearningRate],
          { st' with lr := decay st'.lr }, bl.2, none⟩
      else
        ⟨bl.1 ++ periodic ++ ev.1, st', bl.2, none⟩

/-- An observable effect of the `__main__` block (lines 227-260). -/
inductive TopEvent where
  | printYamlError
  | exitProcess
  | attachCmdParams
  | makeCheckpointDir
  | saveParamsFile
  | infoExperimentId
  | constructVisualizer
  | enterMain
  | constructTrainer
  deriving DecidableEq

/-- How the configuration is obtained at lines 232-240: a `--config` file
whose YAML parse either fails with an error message or yields a document,
or the built-in defaults named by `--model` (the two options are mutually
exclusive and one is required). -/
inductive ConfigSource where
  | configFile (parsed : Except String Unit)
  | modelDefaults

/-- Lines 227-260 of `src/train.py`: the `__main__` block.  A YAML parse
failure prints the error and calls `sys.exit(0)` immediately; otherwise
the command-line parameters are attached, the checkpoint directory is
created when absent, the parameter snapshot is written, the visualizer is
optionally built, and `main` runs, which constructs the
`CurriculumLearningTrainer` (line 129). -/
def mainEntry (source : ConfigSource) (visdom : Bool) (dirWasThere : Bool) :
    List TopEvent :=
  match source with
  | ConfigSource.configFile (Except.error _) =>
      [TopEvent.printYamlError, TopEvent.exitProcess]
  | _ =>
      [TopEvent.attachCmdParams] ++
        (if dirWasThere then [] else [TopEvent.makeCheckpointDir]) ++
        [TopEvent.saveParamsFile, TopEvent.infoExperimentId] ++
        (if visdom then [TopEvent.constructVisualizer] else []) ++
        [TopEvent.enterMain, TopEvent.constructTrainer]

/-- The command-line argument names defined by `parse_args`
(`src/train.py` lines 31-84), which become the fields of `params.cmd`. -/
def cmdArgKeys : List String :=
  ["model", "config", "name", "upscale_factor", "start_epoch", "resume",
    "visdom", "visdom_port", "use_html"]

/-- The `total_steps` values recorded after each `total_steps += 1`
(line 156 of `src/train.py`) over a number of consecutive batches,
starting from a given counter value. -/
def batchSteps : ℕ → ℕ → List ℕ
  | _, 0 => []
  | t, n + 1 => (t + 1) :: batchSteps (t + 1) n

/-- The `total_steps` progression over a number of epochs of
`stepsPerEpoch` batches each, starting from a given counter value
(lines 148-156 of `src/train.py`). -/
def epochSteps (stepsPerEpoch : ℕ) : ℕ → ℕ → List ℕ
  | _, 0 => []
  | t, n + 1 =>
      batchSteps t stepsPerEpoch ++ epochSteps stepsPerEpoch (t + stepsPerEpoch) n

/-- Lines 140-156 of `src/train.py`: a run over `numEpochs` epochs
beginning at `startEpoch` initializes
`total_steps = trainer.start_epoch * steps_per_epoch` (line 141) and then
increments it once per batch; this is the `global_step` progression the
run produces. -/
def globalStepTrace (stepsPerEpoch startEpoch numEpochs : ℕ) : List ℕ :=
  epochSteps stepsPerEpoch (startEpoch * stepsPerEpoch) numEpochs

/-- One evaluation step of a run as seen by the best-model selector: the
state absorbs the epoch snapshot through `update_best_eval_result` and
the epoch counter advances by one. -/
def runStep (p : TrainerState × ℤ) (s : Metrics) : TrainerState × ℤ :=
  (update_best_eval_result p.1 p.2 s, p.2 + 1)

/-- Looking up the key stored at the head of the dictionary. -/
theorem find_cons_eq (k : String) (v : ℚ) (tl : Metrics) :
    Metrics.find ((k, v) :: tl) k = some v := by
  simp [Metrics.find, List.lookup]

/-- Looking up a different key skips the head entry. -/
theorem find_cons_ne (x k : String) (v : ℚ) (tl : Metrics) (h : x ≠ k) :
    Metrics.find ((k, v) :: tl) x = Metrics.find tl x := by
  have hb : (x == k) = false := by
    simpa [beq_eq_false_iff_ne] using h
  simp [Metrics.find, List.lookup, hb]

/-- With duplicate-free keys, lookup returns each stored entry. -/
theorem find_of_mem_of_nodup (m : Metrics) (hm : (Metrics.keys m).Nodup)
    (kv : String × ℚ) (hkv : kv ∈ m) : m.find kv.1 = some kv.2 := by
  induction m with
  | nil => cases hkv
  | cons hd tl ih =>
      obtain ⟨k, v⟩ := hd
      simp only [Metrics.keys, List.map_cons] at hm
      have hhd := (List.nodup_cons.mp hm).1
      have htl : (Metrics.keys tl).Nodup := by
        simpa [Metrics.keys] using (List.nodup_cons.mp hm).2
      rcases List.mem_cons.mp hkv with h | h
      · subst h
        simpa using find_cons_eq k v tl
      · have hne : kv.1 ≠ k := by
          intro he
          exact hhd (he ▸ List.mem_map_of_mem Prod.fst h)
        rw [find_cons_ne kv.1 k v tl hne]
        exact ih htl h

/-- The entry-level filter of `best_key` agrees with the key-level filter
when the dictionary has duplicate-free keys. -/
theorem best_key_filter_eq (be er : Metrics) (hbe : (Metrics.keys be).Nodup) :
    (be.filter fun kv => er.find kv.1 == some kv.2).map Prod.fst =
      (Metrics.keys be).filter fun x => er.find x == be.find x := by
  induction be with
  | nil => simp [Metrics.keys]
  | cons hd tl ih =>
      obtain ⟨k, v⟩ := hd
      simp only [Metrics.keys, List.map_cons] at hbe
      have hhd := (List.nodup_cons.mp hbe).1
      have htl : (Metrics.keys tl).Nodup := by
        simpa [Metrics.keys] using (List.nodup_cons.mp hbe).2
      have hX : List.filter (fun x => er.find x == Metrics.find ((k, v) :: tl) x)
            (List.map Prod.fst tl) =
          List.filter (fun x => er.find x == Metrics.find tl x) (List.map Prod.fst tl) := by
        apply List.filter_congr
        intro x hx
        have hne : x ≠ k := fun he => hhd (he ▸ hx)
        rw [find_cons_ne x k v tl hne]
      have hih : (List.filter (fun kv => er.find kv.1 == some kv.2) tl).map Prod.fst =
          List.filter (fun x => er.find x == Metrics.find tl x) (List.map Prod.fst tl) := by
        simpa [Metrics.keys] using ih htl
      by_cases h : er.find k = some v
      · simp [Metrics.keys, List.filter_cons, find_cons_eq, h, hX, hih]
      · have hfalse : (er.find k == some v) = false := by
          simpa [beq_eq_false_iff_ne] using h
        simp [Metrics.keys, List.filter_cons, find_cons_eq, hfalse, hX, hih]

/-- C1: when an epoch becomes the new best and more than one metric is
tracked, the checkpoint tag is `best_` followed by the underscore-joined
names of exactly those metrics whose value in the current snapshot equals
the now-updated best value for that name; when exactly one metric is
tracked, the tag is `best_` followed by that metric's name alone.  The
equality test is against the updated best values, so a metric that merely
matches the current best is listed too. -/
theorem C1_best_tag_equality_filter (be er : Metrics)
    (hnd : (Metrics.keys be).Nodup) :
    (1 < be.length →
      best_tag be er =
        "best_" ++ "_".intercalate
          ((Metrics.keys be).filter fun x => er.find x == be.find x)) ∧
    (∀ k v, be = [(k, v)] → best_tag be er = "best_" ++ k) := by
  constructor
  · intro hlen
    unfold best_tag best_key
    rw [if_pos hlen, best_key_filter_eq be er hnd]
  · intro k v hbe
    subst hbe
    rfl

/-- Witness for C1 at a concrete two-metric dictionary where only the
first metric value coincides with the snapshot. -/
theorem C1_best_tag_equality_filter_witness :
    (Metrics.keys [("psnr", (30 : ℚ)), ("ssim", mkRat 9 10)]).Nodup ∧
    ((1 < ([("psnr", (30 : ℚ)), ("ssim", mkRat 9 10)] : Metrics).length →
      best_tag [("psnr", (30 : ℚ)), ("ssim", mkRat 9 10)] [("psnr", 30), ("ssim", mkRat 1 2)] =
        "best_" ++ "_".intercalate
          ((Metrics.keys [("psnr", (30 : ℚ)), ("ssim", mkRat 9 10)]).filter fun x =>
            Metrics.find [("psnr", (30 : ℚ)), ("ssim", mkRat 1 2)] x ==
              Metrics.find [("psnr", (30 : ℚ)), ("ssim", mkRat 9 10)] x)) ∧
    (∀ k v, ([("psnr", (30 : ℚ)), ("ssim", mkRat 9 10)] : Metrics) = [(k, v)] →
      best_tag [("psnr", (30 : ℚ)), ("ssim", mkRat 9 10)] [("psnr", 30), ("ssim", mkRat 1 2)] =
        "best_" ++ k)) :=
  ⟨by decide, C1_best_tag_equality_filter _ _ (by decide)⟩

/-- C2 counterexample: starting from best values psnr 29.0, ssim 0.85 at
epoch 3, a snapshot at epoch 5 with psnr 30.0 (improved) and ssim 0.84
(below its prior best) produces the tag `best_psnr_ssim`, not the
`best_psnr` the claim states: the update overwrites every best entry with
the snapshot, so every metric equals its updated best. -/
theorem C2_only_psnr_improves_counterexample :
    (evalDecision priorState 5 [("psnr", 30), ("ssim", mkRat 21 25)]).2 =
      some "best_psnr_ssim" ∧
    some "best_psnr_ssim" ≠ some "best_psnr" := by
  constructor
  · decide
  · decide

/-- C2 amended: with two tracked metrics psnr and ssim, whenever any
metric strictly improves (both improving, only psnr improving with ssim
equal to its prior best, or only psnr improving with ssim below it) the
checkpoint written that epoch is tagged `best_psnr_ssim`: the update
overwrites all best entries with the snapshot, so every tracked metric
equals its updated best value and is listed in the tag. -/
theorem C2_any_improvement_tags_all_metrics :
    (evalDecision priorState 5 [("psnr", 30), ("ssim", mkRat 9 10)]).2 =
      some "best_psnr_ssim" ∧
    (evalDecision priorState 5 [("psnr", 30), ("ssim", mkRat 17 20)]).2 =
      some "best_psnr_ssim" ∧
    (evalDecision priorState 5 [("psnr", 30), ("ssim", mkRat 21 25)]).2 =
      some "best_psnr_ssim" := by
  refine ⟨by decide, by decide, by decide⟩

/-- Every event of the batch loop is a model step or a loss log of the
same epoch. -/
theorem batchLoop_events (epoch : ℕ) (t0 : ℤ) (times : List ℤ) (steps : ℕ) :
    ∀ e ∈ (batchLoop epoch t0 times steps).1,
      e = Event.setInput ∨ e = Event.forward ∨ e = Event.optimizeParameters ∨
        ∃ s t, e = Event.logErrors epoch s t := by
  induction times generalizing steps with
  | nil => intro e he; simp [batchLoop] at he
  | cons tNow rest ih =>
      intro e he
      simp only [batchLoop, List.mem_cons, List.mem_append] at he
      rcases he with h | h | h | h | h
      · exact Or.inl h
      · exact Or.inr (Or.inl h)
      · exact Or.inr (Or.inr (Or.inl h))
      · refine Or.inr (Or.inr (Or.inr ?_))
        by_cases hc : (steps + 1) % 100 = 0
        · rw [if_pos hc] at h
          exact ⟨steps + 1, tNow - t0, List.mem_singleton.mp h⟩
        · rw [if_neg hc] at h
          cases h
      · exact ih (steps + 1) e h

/-- The batch loop increments `total_steps` once per batch. -/
theorem batchLoop_totalSteps (epoch : ℕ) (t0 : ℤ) (times : List ℤ) (steps : ℕ) :
    (batchLoop epoch t0 times steps).2 = steps + times.length := by
  induction times generalizing steps with
  | nil => simp [batchLoop]
  | cons tNow rest ih =>
      simp only [batchLoop, ih (steps + 1), List.length_cons]
      omega

/-- Every event of the per-sample evaluation loop is an input feed or a
sample evaluation. -/
theorem evalLoop_events (samples : List Bool) :
    ∀ e ∈ (evalLoop samples).1, e = Event.setInput ∨ e = Event.evaluateSample := by
  induction samples with
  | nil => intro e he; simp [evalLoop] at he
  | cons ok rest ih =>
      intro e he
      cases ok with
      | false =>
          simp only [evalLoop] at he
          exact Or.inl (List.mem_singleton.mp he)
      | true =>
          simp only [evalLoop, List.mem_cons] at he
          rcases he with h | h | h
          · exact Or.inl h
          · exact Or.inr h
          · exact ih e h

/-- When every sample evaluation returns normally, the evaluation loop
completes. -/
theorem evalLoop_complete (samples : List Bool) (h : ∀ b ∈ samples, b = true) :
    (evalLoop samples).2 = true := by
  induction samples with
  | nil => rfl
  | cons ok rest ih =>
      have hok := h ok (List.mem_cons_self ok rest)
      subst hok
      simpa [evalLoop] using ih fun b hb => h b (List.mem_cons_of_mem _ hb)

set_option maxRecDepth 10000 in
/-- C5 counterexample: with 200 batches one time unit apart in a single
epoch, logs are emitted at steps 100 and 200; the second log reports 200
time units, the elapsed time since the start of the epoch, not the 100
units elapsed since the previous log emission, because
`iter_start_time` is only set at the start of the epoch (line 150). -/
theorem C5_elapsed_time_counterexample :
    Event.logErrors 0 100 100 ∈
        (batchLoop 0 0 ((List.range 200).map fun i => (i : ℤ) + 1) 0).1 ∧
      Event.logErrors 0 200 200 ∈
        (batchLoop 0 0 ((List.range 200).map fun i => (i : ℤ) + 1) 0).1 ∧
      Event.logErrors 0 200 100 ∉
        (batchLoop 0 0 ((List.range 200).map fun i => (i : ℤ) + 1) 0).1 := by
  refine ⟨by decide, by decide, by decide⟩

/-- C5 amended: a loss log entry is emitted exactly when the global step
counter is divisible by 100, where the counter starts from the value
carried into the epoch (so the interval spans epoch transitions) and
increments once per batch; each entry's emitted elapsed time is the wall
time since `iter_start_time`, the start of the current epoch, not since
the previous log emission. -/
theorem C5_log_characterization (epoch : ℕ) (t0 : ℤ) (times : List ℤ)
    (steps : ℕ) :
    (∀ e s t, Event.logErrors e s t ∈ (batchLoop epoch t0 times steps).1 ↔
      (e = epoch ∧ steps < s ∧ s ≤ steps + times.length ∧ s % 100 = 0 ∧
        t = times.getD (s - steps - 1) 0 - t0)) ∧
    (batchLoop epoch t0 times steps).2 = steps + times.length := by
  refine ⟨?_, batchLoop_totalSteps epoch t0 times steps⟩
  induction times generalizing steps with
  | nil =>
      intro e s t
      simp only [batchLoop, List.not_mem_nil, false_iff, List.length_nil]
      rintro ⟨-, h1, h2, -, -⟩
      omega
  | cons tNow rest ih =>
      intro e s t
      constructor
      · intro hmem
        simp only [batchLoop, List.mem_cons, List.mem_append] at hmem
        rcases hmem with h | h | h | h | h
        · cases h
        · cases h
        · cases h
        · by_cases hc : (steps + 1) % 100 = 0
          · rw [if_pos hc] at h
            have h := List.mem_singleton.mp h
            injection h with h1 h2 h3
            subst h1; subst h2; subst h3
            refine ⟨rfl, by omega, by simp only [List.length_cons]; omega, hc, ?_⟩
            have hz : steps + 1 - steps - 1 = 0 := by omega
            rw [hz, List.getD_cons_zero]
          · rw [if_neg hc] at h
            cases h
        · obtain ⟨he, h1, h2, h3, h4⟩ := (ih (steps + 1) e s t).mp h
          refine ⟨he, by omega, by simp only [List.length_cons]; omega, h3, ?_⟩
          have hidx : s - steps - 1 = (s - (steps + 1) - 1) + 1 := by omega
          rw [hidx, List.getD_cons_succ]
          exact h4
      · rintro ⟨rfl, h1, h2, h3, h4⟩
        simp only [batchLoop, List.mem_cons, List.mem_append]
        by_cases hs : s = steps + 1
        · subst hs
          refine Or.inr (Or.inr (Or.inr (Or.inl ?_)))
          rw [if_pos h3]
          have hz : steps + 1 - steps - 1 = 0 := by omega
          rw [hz, List.getD_cons_zero] at h4
          simp [h4]
        · refine Or.inr (Or.inr (Or.inr (Or.inr ?_)))
          refine (ih (steps + 1) e s t).mpr ?_
          refine ⟨rfl, by omega, ?_, h3, ?_⟩
          · simp only [List.length_cons] at h2
            omega
          · have hidx : s - steps - 1 = (s - (steps + 1) - 1) + 1 := by omega
            rw [hidx, List.getD_cons_succ] at h4
            exact h4

/-- Splitting a run of `a + b` epochs at the epoch boundary. -/
theorem epochSteps_add (spe t a b : ℕ) :
    epochSteps spe t (a + b) =
      epochSteps spe t a ++ epochSteps spe (t + a * spe) b := by
  induction a generalizing t with
  | zero => simp [epochSteps]
  | succ n ih =>
      have hn : n + 1 + b = (n + b) + 1 := by omega
      rw [hn]
      simp only [epochSteps]
      rw [ih (t + spe), List.append_assoc]
      have : t + spe + n * spe = t + (n + 1) * spe := by ring
      rw [this]

/-- C7: running `K` epochs from a fresh start, then resuming with
`start_epoch = K` and running `M` more epochs, yields the same
`total_steps` progression (initialized as `start_epoch * steps_per_epoch`
and incremented once per batch) as a single uninterrupted run of `K + M`
epochs. -/
theorem C7_resume_step_progression (spe K M : ℕ) :
    globalStepTrace spe 0 K ++ globalStepTrace spe K M =
      globalStepTrace spe 0 (K + M) := by
  unfold globalStepTrace
  rw [epochSteps_add spe (0 * spe) K M]
  simp [Nat.zero_mul]

/-- C6: when the YAML configuration document fails to parse, the process
prints the error and exits, before the checkpoint directory is created
and before the trainer or any training state is constructed. -/
theorem C6_yaml_failure_exits_early (msg : String) (visdom dirWasThere : Bool) :
    mainEntry (ConfigSource.configFile (Except.error msg)) visdom dirWasThere =
      [TopEvent.printYamlError, TopEvent.exitProcess] ∧
    TopEvent.makeCheckpointDir ∉
      mainEntry (ConfigSource.configFile (Except.error msg)) visdom dirWasThere ∧
    TopEvent.constructTrainer ∉
      mainEntry (ConfigSource.configFile (Except.error msg)) visdom dirWasThere ∧
    TopEvent.enterMain ∉
      mainEntry (ConfigSource.configFile (Except.error msg)) visdom dirWasThere := by
  refine ⟨rfl, ?_, ?_, ?_⟩ <;> simp [mainEntry]

/-- `update_best_eval_result` never changes the learning rate. -/
theorem update_best_lr (st : TrainerState) (e : ℤ) (s : Metrics) :
    (update_best_eval_result st e s).lr = st.lr := by
  unfold update_best_eval_result
  cases hb : st.best with
  | none => rfl
  | some p => by_cases h : improvedAny p.2 s = true <;> simp [h]

/-- Each best-model update either leaves the state unchanged, or moves
`best_epoch` to the given epoch, and in the latter case, once a best
snapshot exists, some tracked metric strictly improved. -/
theorem update_best_step (st : TrainerState) (e : ℤ) (s : Metrics) :
    (update_best_eval_result st e s = st ∧
      bestEpochOf (update_best_eval_result st e s) = bestEpochOf st) ∨
    (bestEpochOf (update_best_eval_result st e s) = e ∧
      (st.best.isSome = true → improvedAny (bestEvalOf st) s = true)) := by
  unfold update_best_eval_result
  cases hb : st.best with
  | none =>
      right
      refine ⟨by simp [bestEpochOf], ?_⟩
      intro h
      simp at h
  | some p =>
      by_cases h : improvedAny p.2 s = true
      · right
        refine ⟨by simp [h, bestEpochOf], ?_⟩
        intro _
        have hbe : bestEvalOf st = p.2 := by simp [bestEvalOf, hb]
        rw [hbe]
        exact h
      · left
        simp [h]

/-- The best epoch after an update stays between its old value and the
current epoch. -/
theorem bestEpochOf_update_ge (st : TrainerState) (e : ℤ) (s : Metrics)
    (h : bestEpochOf st ≤ e) :
    bestEpochOf st ≤ bestEpochOf (update_best_eval_result st e s) ∧
      bestEpochOf (update_best_eval_result st e s) ≤ e := by
  rcases update_best_step st e s with ⟨-, heq⟩ | ⟨he, -⟩
  · rw [heq]
    exact ⟨le_refl _, h⟩
  · rw [he]
    exact ⟨h, le_refl _⟩

/-- The three possible outcomes of the no-grad body: a sample raised, the
summary print raised the attribute error, or the block completed with an
optional best save. -/
theorem evalBody_cases (epoch : ℕ) (st : TrainerState) (inp : EpochInput) :
    ((evalBody epoch st inp).2.2 = some Err.evalFailure ∧
      (evalBody epoch st inp).1 =
        Event.setEval :: Event.resetEvalResult :: (evalLoop inp.samples).1) ∨
    ((evalBody epoch st inp).2.2 = some (Err.attributeError "eval_dataset") ∧
      (evalBody epoch st inp).1 =
        Event.setEval :: Event.resetEvalResult ::
          ((evalLoop inp.samples).1 ++ [Event.updateBest])) ∨
    ((evalBody epoch st inp).2.2 = none ∧
      ∃ saves,
        (evalBody epoch st inp).1 =
          Event.setEval :: Event.resetEvalResult ::
            ((evalLoop inp.samples).1 ++
              ([Event.updateBest, Event.printEval, Event.infoBest] ++ saves ++
                [Event.setTrain])) ∧
        (saves = [] ∨ ∃ ks, saves = [Event.saveBest ks])) := by
  unfold evalBody
  cases hL : (evalLoop inp.samples).2 with
  | false => exact Or.inl ⟨by simp [hL], by simp [hL]⟩
  | true =>
      rcases hD : inp.evalDataset with _ | d
      · exact Or.inr (Or.inl ⟨by simp [hL, hD], by simp [hL, hD]⟩)
      · refine Or.inr (Or.inr ⟨by simp [hL, hD], ?_⟩)
        by_cases hB : bestEpochOf (update_best_eval_result st (epoch : ℤ)
            inp.snapshot) = (epoch : ℤ)
        · refine ⟨[Event.saveBest (best_key (bestEvalOf (update_best_eval_result st
            (epoch : ℤ) inp.snapshot)) inp.snapshot)], by simp [hL, hD, hB], ?_⟩
          exact Or.inr ⟨_, rfl⟩
        · exact ⟨[], by simp [hL, hD, hB], Or.inl rfl⟩

/-- Every event of the no-grad body belongs to the evaluation block. -/
theorem evalBody_event_shapes (epoch : ℕ) (st : TrainerState) (inp : EpochInput) :
    ∀ e ∈ (evalBody epoch st inp).1,
      e = Event.setEval ∨ e = Event.resetEvalResult ∨ e = Event.setInput ∨
        e = Event.evaluateSample ∨ e = Event.updateBest ∨ e = Event.printEval ∨
        e = Event.infoBest ∨ (∃ ks, e = Event.saveBest ks) ∨ e = Event.setTrain := by
  intro e he
  rcases evalBody_cases epoch st inp with ⟨-, h⟩ | ⟨-, h⟩ | ⟨-, saves, h, hs⟩ <;>
    rw [h] at he
  · simp only [List.mem_cons] at he
    rcases he with rfl | rfl | he
    · exact Or.inl rfl
    · exact Or.inr (Or.inl rfl)
    · rcases evalLoop_events inp.samples e he with rfl | rfl
      · exact Or.inr (Or.inr (Or.inl rfl))
      · exact Or.inr (Or.inr (Or.inr (Or.inl rfl)))
  · simp only [List.mem_cons, List.mem_append, List.mem_singleton,
      List.not_mem_nil, or_false] at he
    rcases he with rfl | rfl | he | rfl
    · exact Or.inl rfl
    · exact Or.inr (Or.inl rfl)
    · rcases evalLoop_events inp.samples e he with rfl | rfl
      · exact Or.inr (Or.inr (Or.inl rfl))
      · exact Or.inr (Or.inr (Or.inr (Or.inl rfl)))
    · exact Or.inr (Or.inr (Or.inr (Or.inr (Or.inl rfl))))
  · simp only [List.mem_cons, List.mem_append, List.mem_singleton,
      List.not_mem_nil, or_false] at he
    rcases he with rfl | rfl | he | (((rfl | rfl | rfl) | hsv) | rfl)
    · exact Or.inl rfl
    · exact Or.inr (Or.inl rfl)
    · rcases evalLoop_events inp.samples e he with rfl | rfl
      · exact Or.inr (Or.inr (Or.inl rfl))
      · exact Or.inr (Or.inr (Or.inr (Or.inl rfl)))
    · exact Or.inr (Or.inr (Or.inr (Or.inr (Or.inl rfl))))
    · exact Or.inr (Or.inr (Or.inr (Or.inr (Or.inr (Or.inl rfl)))))
    · exact Or.inr (Or.inr (Or.inr (Or.inr (Or.inr (Or.inr (Or.inl rfl))))))
    · rcases hs with rfl | ⟨ks, rfl⟩
      · cases hsv
      · rcases List.mem_singleton.mp hsv with rfl
        exact Or.inr (Or.inr (Or.inr (Or.inr (Or.inr (Or.inr (Or.inr
          (Or.inl ⟨ks, rfl⟩)))))))
    · exact Or.inr (Or.inr (Or.inr (Or.inr (Or.inr (Or.inr (Or.inr
        (Or.inr rfl)))))))

/-- When every sample evaluates normally and `args.eval_dataset` exists,
the evaluation block completes: the state it returns is the updated best
state and no exception escapes. -/
theorem evalBody_success (epoch : ℕ) (st : TrainerState) (inp : EpochInput)
    (hok : ∀ b ∈ inp.samples, b = true) (hattr : inp.evalDataset.isSome = true) :
    (evalBody epoch st inp).2.1 =
        update_best_eval_result st (epoch : ℤ) inp.snapshot ∧
      (evalBody epoch st inp).2.2 = none := by
  have hL := evalLoop_complete inp.samples hok
  rcases hD : inp.evalDataset with _ | d
  · rw [hD] at hattr
    simp at hattr
  · constructor <;> simp [evalBody, hL, hD]

/-- When every sample evaluates normally but the configuration does not
define `eval_dataset`, the summary print raises the attribute error right
after the best-model update. -/
theorem evalBody_attrError (epoch : ℕ) (st : TrainerState) (inp : EpochInput)
    (hok : ∀ b ∈ inp.samples, b = true) (hattr : inp.evalDataset = none) :
    (evalBody epoch st inp).2.2 = some (Err.attributeError "eval_dataset") ∧
      (evalBody epoch st inp).1 =
        Event.setEval :: Event.resetEvalResult ::
          ((evalLoop inp.samples).1 ++ [Event.updateBest]) := by
  have hL := evalLoop_complete inp.samples hok
  constructor <;> simp [evalBody, hL, hattr]

/-- The exception escaping one pass of the epoch loop body is exactly the
one the evaluation block produced. -/
theorem epochStep_err (patience : ℤ) (decay : ℚ → ℚ) (epoch : ℕ)
    (st : TrainerState) (steps : ℕ) (inp : EpochInput) :
    (epochStep patience decay epoch st steps inp).err =
      (evalBody epoch st inp).2.2 := by
  unfold epochStep withNoGrad
  rcases hE : (evalBody epoch st inp).2.2 with _ | e
  · simp only [hE]
    by_cases hP : patience < (epoch : ℤ) - bestEpochOf (evalBody epoch st inp).2.1 <;>
      simp [hP]
  · simp [hE]

/-- The trace of one pass of the epoch loop body, decomposed into the
batch part, the periodic-checkpoint part, the no-gradient part and the
learning-rate part (the last being empty when an exception escaped the
evaluation block or the patience window is not exceeded). -/
theorem epochStep_trace_eq (patience : ℤ) (decay : ℚ → ℚ) (epoch : ℕ)
    (st : TrainerState) (steps : ℕ) (inp : EpochInput) :
    (epochStep patience decay epoch st steps inp).trace =
      (batchLoop epoch inp.iterStart inp.batchTimes steps).1 ++
        ((if (epoch + 1) % 10 = 0 then [Event.savePeriodic (epoch + 1)] else []) ++
          ((Event.gradDisable :: ((evalBody epoch st inp).1 ++ [Event.gradRestore])) ++
            (if (evalBody epoch st inp).2.2 = none ∧
                patience < (epoch : ℤ) - bestEpochOf (evalBody epoch st inp).2.1 then
              [Event.saveLastLR (evalBody epoch st inp).2.1.lr,
                Event.updateLearningRate]
            else []))) := by
  unfold epochStep withNoGrad
  rcases hE : (evalBody epoch st inp).2.2 with _ | e
  · by_cases hP : patience < (epoch : ℤ) - bestEpochOf (evalBody epoch st inp).2.1
    · simp [hE, hP, List.append_assoc]
    · simp [hE, hP]
  · simp [hE]

/-- The state after one pass of the epoch loop body when no exception
escapes: the evaluation state, with the learning rate decayed exactly
when the patience window is exceeded. -/
theorem epochStep_success_state (patience : ℤ) (decay : ℚ → ℚ) (epoch : ℕ)
    (st : TrainerState) (steps : ℕ) (inp : EpochInput)
    (hE : (evalBody epoch st inp).2.2 = none) :
    (epochStep patience decay epoch st steps inp).state =
      if patience < (epoch : ℤ) - bestEpochOf (evalBody epoch st inp).2.1 then
        { (evalBody epoch st inp).2.1 with
            lr := decay (evalBody epoch st inp).2.1.lr }
      else (evalBody epoch st inp).2.1 := by
  unfold epochStep withNoGrad
  by_cases hP : patience < (epoch : ℤ) - bestEpochOf (evalBody epoch st inp).2.1 <;>
    simp [hE, hP]

/-- The batch loop never requests a periodic checkpoint. -/
theorem savePeriodic_not_mem_batch (epoch n : ℕ) (t0 : ℤ) (times : List ℤ)
    (steps : ℕ) : Event.savePeriodic n ∉ (batchLoop epoch t0 times steps).1 := by
  intro h
  rcases batchLoop_events epoch t0 times steps _ h with h | h | h | ⟨s, t, h⟩ <;>
    simp at h

/-- The batch loop never mutates the learning rate. -/
theorem updateLR_not_mem_batch (epoch : ℕ) (t0 : ℤ) (times : List ℤ)
    (steps : ℕ) : Event.updateLearningRate ∉ (batchLoop epoch t0 times steps).1 := by
  intro h
  rcases batchLoop_events epoch t0 times steps _ h with h | h | h | ⟨s, t, h⟩ <;>
    simp at h

/-- The batch loop never saves a pre-decay checkpoint. -/
theorem saveLastLR_not_mem_batch (epoch : ℕ) (t0 : ℤ) (times : List ℤ)
    (steps : ℕ) (q : ℚ) :
    Event.saveLastLR q ∉ (batchLoop epoch t0 times steps).1 := by
  intro h
  rcases batchLoop_events epoch t0 times steps _ h with h | h | h | ⟨s, t, h⟩ <;>
    simp at h

/-- The batch loop never saves a best checkpoint. -/
theorem saveBest_not_mem_batch (epoch : ℕ) (t0 : ℤ) (times : List ℤ)
    (steps : ℕ) (ks : List String) :
    Event.saveBest ks ∉ (batchLoop epoch t0 times steps).1 := by
  intro h
  rcases batchLoop_events epoch t0 times steps _ h with h | h | h | ⟨s, t, h⟩ <;>
    simp at h

/-- The evaluation block never requests a periodic checkpoint. -/
theorem savePeriodic_not_mem_evalBody (epoch n : ℕ) (st : TrainerState)
    (inp : EpochInput) : Event.savePeriodic n ∉ (evalBody epoch st inp).1 := by
  intro h
  rcases evalBody_event_shapes epoch st inp _ h with
    h | h | h | h | h | h | h | ⟨ks, h⟩ | h <;> simp at h

/-- The evaluation block never mutates the learning rate. -/
theorem updateLR_not_mem_evalBody (epoch : ℕ) (st : TrainerState)
    (inp : EpochInput) :
    Event.updateLearningRate ∉ (evalBody epoch st inp).1 := by
  intro h
  rcases evalBody_event_shapes epoch st inp _ h with
    h | h | h | h | h | h | h | ⟨ks, h⟩ | h <;> simp at h

/-- The evaluation block never saves a pre-decay checkpoint. -/
theorem saveLastLR_not_mem_evalBody (epoch : ℕ) (st : TrainerState)
    (inp : EpochInput) (q : ℚ) :
    Event.saveLastLR q ∉ (evalBody epoch st inp).1 := by
  intro h
  rcases evalBody_event_shapes epoch st inp _ h with
    h | h | h | h | h | h | h | ⟨ks, h⟩ | h <;> simp at h

/-- A periodic checkpoint appears in an epoch trace exactly when the
1-based epoch number is divisible by 10, and carries that number. -/
theorem savePeriodic_mem_epochStep (patience : ℤ) (decay : ℚ → ℚ) (epoch : ℕ)
    (st : TrainerState) (steps : ℕ) (inp : EpochInput) (n : ℕ) :
    Event.savePeriodic n ∈ (epochStep patience decay epoch st steps inp).trace ↔
      ((epoch + 1) % 10 = 0 ∧ n = epoch + 1) := by
  rw [epochStep_trace_eq]
  simp only [List.mem_append, List.mem_cons]
  constructor
  · intro h
    rcases h with h | h
    · exact absurd h
        (savePeriodic_not_mem_batch epoch n inp.iterStart inp.batchTimes steps)
    rcases h with h | h
    · by_cases hc : (epoch + 1) % 10 = 0
      · rw [if_pos hc] at h
        have h := List.mem_singleton.mp h
        injection h with h
        exact ⟨hc, h⟩
      · rw [if_neg hc] at h
        cases h
    rcases h with h | h
    · rcases h with h | h | h | h
      · cases h
      · exact absurd h (savePeriodic_not_mem_evalBody epoch n st inp)
      · cases h
      · cases h
    · by_cases hc : (evalBody epoch st inp).2.2 = none ∧
          patience < (epoch : ℤ) - bestEpochOf (evalBody epoch st inp).2.1
      · rw [if_pos hc] at h
        have h := h
        simp only [List.mem_cons, List.not_mem_nil, or_false] at h
        rcases h with h | h <;> cases h
      · rw [if_neg hc] at h
        cases h
  · rintro ⟨hc, rfl⟩
    refine Or.inr (Or.inl ?_)
    rw [if_pos hc]
    exact List.mem_singleton.mpr rfl

/-- C4: the unconditional periodic checkpoint is requested in an epoch
exactly when `(epoch + 1) % 10 == 0` (the period is the fixed literal 10,
the documented default); the checkpoint carries the 1-based epoch number
`epoch + 1`; and the decision does not depend on any of the epoch's
evaluation inputs. -/
theorem C4_periodic_checkpoint (patience : ℤ) (decay : ℚ → ℚ) (epoch : ℕ)
    (st : TrainerState) (steps : ℕ) (inp : EpochInput) :
    (Event.savePeriodic (epoch + 1) ∈
        (epochStep patience decay epoch st steps inp).trace ↔
      (epoch + 1) % 10 = 0) ∧
    (∀ n, Event.savePeriodic n ∈
        (epochStep patience decay epoch st steps inp).trace → n = epoch + 1) ∧
    (∀ inp' : EpochInput,
      (Event.savePeriodic (epoch + 1) ∈
          (epochStep patience decay epoch st steps inp).trace ↔
        Event.savePeriodic (epoch + 1) ∈
          (epochStep patience decay epoch st steps inp').trace)) := by
  refine ⟨?_, ?_, ?_⟩
  · rw [savePeriodic_mem_epochStep]
    simp
  · intro n h
    exact ((savePeriodic_mem_epochStep patience decay epoch st steps inp n).mp h).2
  · intro inpB
    rw [savePeriodic_mem_epochStep, savePeriodic_mem_epochStep]

/-- The epoch trace when evaluation completes without an exception: the
learning-rate part appears exactly when the patience window is exceeded
relative to the freshly updated best epoch, and carries the current
(pre-decay) learning rate. -/
theorem epochStep_trace_success (patience : ℤ) (decay : ℚ → ℚ) (epoch : ℕ)
    (st : TrainerState) (steps : ℕ) (inp : EpochInput)
    (hok : ∀ b ∈ inp.samples, b = true) (hattr : inp.evalDataset.isSome = true) :
    (epochStep patience decay epoch st steps inp).trace =
      (batchLoop epoch inp.iterStart inp.batchTimes steps).1 ++
        ((if (epoch + 1) % 10 = 0 then [Event.savePeriodic (epoch + 1)] else []) ++
          ((Event.gradDisable :: ((evalBody epoch st inp).1 ++ [Event.gradRestore])) ++
            (if patience < (epoch : ℤ) -
                bestEpochOf (update_best_eval_result st (epoch : ℤ) inp.snapshot) then
              [Event.saveLastLR st.lr, Event.updateLearningRate]
            else []))) := by
  obtain ⟨hS, hN⟩ := evalBody_success epoch st inp hok hattr
  rw [epochStep_trace_eq, hS, hN, update_best_lr]
  simp only [true_and]

/-- C3: for an epoch whose evaluation completes, learning-rate decay is
triggered exactly when `epoch - best_epoch` (read after the best-model
decision) strictly exceeds the configured patience; whenever it triggers,
a checkpoint carrying the pre-decay learning rate is written immediately
before `update_learning_rate` mutates the learning rate. -/
theorem C3_lr_decay (patience : ℤ) (decay : ℚ → ℚ) (epoch : ℕ)
    (st : TrainerState) (steps : ℕ) (inp : EpochInput)
    (hok : ∀ b ∈ inp.samples, b = true) (hattr : inp.evalDataset.isSome = true) :
    (Event.updateLearningRate ∈ (epochStep patience decay epoch st steps inp).trace ↔
      patience < (epoch : ℤ) -
        bestEpochOf (update_best_eval_result st (epoch : ℤ) inp.snapshot)) ∧
    (patience < (epoch : ℤ) -
        bestEpochOf (update_best_eval_result st (epoch : ℤ) inp.snapshot) →
      ∃ pre,
        (epochStep patience decay epoch st steps inp).trace =
          pre ++ [Event.saveLastLR st.lr, Event.updateLearningRate] ∧
        (∀ q, Event.saveLastLR q ∉ pre) ∧
        Event.updateLearningRate ∉ pre ∧
        (epochStep patience decay epoch st steps inp).state.lr = decay st.lr) := by
  obtain ⟨hS, hN⟩ := evalBody_success epoch st inp hok hattr
  rw [epochStep_trace_success patience decay epoch st steps inp hok hattr]
  constructor
  · simp only [List.mem_append, List.mem_cons]
    constructor
    · intro h
      rcases h with h | h
      · exact absurd h
          (updateLR_not_mem_batch epoch inp.iterStart inp.batchTimes steps)
      rcases h with h | h
      · by_cases hc : (epoch + 1) % 10 = 0
        · rw [if_pos hc] at h
          have h := List.mem_singleton.mp h
          cases h
        · rw [if_neg hc] at h
          cases h
      rcases h with h | h
      · rcases h with h | h | h | h
        · cases h
        · exact absurd h (updateLR_not_mem_evalBody epoch st inp)
        · cases h
        · cases h
      · by_cases hP : patience < (epoch : ℤ) -
            bestEpochOf (update_best_eval_result st (epoch : ℤ) inp.snapshot)
        · exact hP
        · rw [if_neg hP] at h
          cases h
    · intro hP
      refine Or.inr (Or.inr (Or.inr ?_))
      rw [if_pos hP]
      simp
  · intro hP
    rw [if_pos hP]
    refine ⟨(batchLoop epoch inp.iterStart inp.batchTimes steps).1 ++
      ((if (epoch + 1) % 10 = 0 then [Event.savePeriodic (epoch + 1)] else []) ++
        (Event.gradDisable :: ((evalBody epoch st inp).1 ++ [Event.gradRestore]))),
      ?_, ?_, ?_, ?_⟩
    · simp [List.append_assoc]
    · intro q hq
      simp only [List.mem_append, List.mem_cons] at hq
      rcases hq with hq | hq
      · exact absurd hq
          (saveLastLR_not_mem_batch epoch inp.iterStart inp.batchTimes steps q)
      rcases hq with hq | hq
      · by_cases hc : (epoch + 1) % 10 = 0
        · rw [if_pos hc] at hq
          have hq := List.mem_singleton.mp hq
          cases hq
        · rw [if_neg hc] at hq
          cases hq
      · rcases hq with hq | hq | hq | hq
        · cases hq
        · exact absurd hq (saveLastLR_not_mem_evalBody epoch st inp q)
        · cases hq
        · cases hq
    · intro hq
      simp only [List.mem_append, List.mem_cons] at hq
      rcases hq with hq | hq
      · exact absurd hq
          (updateLR_not_mem_batch epoch inp.iterStart inp.batchTimes steps)
      rcases hq with hq | hq
      · by_cases hc : (epoch + 1) % 10 = 0
        · rw [if_pos hc] at hq
          have hq := List.mem_singleton.mp hq
          cases hq
        · rw [if_neg hc] at hq
          cases hq
      · rcases hq with hq | hq | hq | hq
        · cases hq
        · exact absurd hq (updateLR_not_mem_evalBody epoch st inp)
        · cases hq
        · cases hq
    · rw [epochStep_success_state patience decay epoch st steps inp hN, hS,
        if_pos hP, update_best_lr]

/-- Witness for C3 at a concrete input: patience 0, epoch 7, a prior best
at epoch 3, and a snapshot that improves psnr. -/
theorem C3_lr_decay_witness :
    ((∀ b ∈ ([true] : List Bool), b = true) ∧
      (Option.isSome (some "Set5") = true)) ∧
    ((Event.updateLearningRate ∈ (epochStep 0 (fun q => q) 7 priorState 0
        ⟨0, [], [true], [("psnr", 31)], some "Set5"⟩).trace ↔
      (0 : ℤ) < (7 : ℕ) -
        bestEpochOf (update_best_eval_result priorState ((7 : ℕ) : ℤ)
          [("psnr", 31)])) ∧
    ((0 : ℤ) < (7 : ℕ) -
        bestEpochOf (update_best_eval_result priorState ((7 : ℕ) : ℤ)
          [("psnr", 31)]) →
      ∃ pre,
        (epochStep 0 (fun q => q) 7 priorState 0
            ⟨0, [], [true], [("psnr", 31)], some "Set5"⟩).trace =
          pre ++ [Event.saveLastLR priorState.lr, Event.updateLearningRate] ∧
        (∀ q, Event.saveLastLR q ∉ pre) ∧
        Event.updateLearningRate ∉ pre ∧
        (epochStep 0 (fun q => q) 7 priorState 0
            ⟨0, [], [true], [("psnr", 31)], some "Set5"⟩).state.lr =
          (fun q => q) priorState.lr)) :=
  ⟨⟨by decide, by decide⟩,
    C3_lr_decay 0 (fun q => q) 7 priorState 0
      ⟨0, [], [true], [("psnr", 31)], some "Set5"⟩ (by decide) (by decide)⟩

/-- C8: the entire evaluation block (entering eval mode, resetting the
metric accumulator, the per-sample evaluations, the best-model decision,
the best-checkpoint save and the return to train mode) runs between the
gradient-disable and gradient-restore events, and gradient tracking is
restored on every exit path, also when an exception propagates out of the
evaluation block, in which case nothing in the epoch follows the
restore. -/
theorem C8_no_grad_scope (patience : ℤ) (decay : ℚ → ℚ) (epoch : ℕ)
    (st : TrainerState) (steps : ℕ) (inp : EpochInput) :
    ∃ pre rest,
      (epochStep patience decay epoch st steps inp).trace =
        pre ++ (Event.gradDisable ::
          ((evalBody epoch st inp).1 ++ (Event.gradRestore :: rest))) ∧
      Event.gradDisable ∉ (evalBody epoch st inp).1 ∧
      Event.gradRestore ∉ (evalBody epoch st inp).1 ∧
      Event.setEval ∈ (evalBody epoch st inp).1 ∧
      Event.resetEvalResult ∈ (evalBody epoch st inp).1 ∧
      ((epochStep patience decay epoch st steps inp).err = none →
        Event.updateBest ∈ (evalBody epoch st inp).1 ∧
        Event.setTrain ∈ (evalBody epoch st inp).1) ∧
      (∀ ks, Event.saveBest ks ∈
          (epochStep patience decay epoch st steps inp).trace →
        Event.saveBest ks ∈ (evalBody epoch st inp).1) ∧
      ((epochStep patience decay epoch st steps inp).err ≠ none → rest = []) := by
  refine ⟨(batchLoop epoch inp.iterStart inp.batchTimes steps).1 ++
      (if (epoch + 1) % 10 = 0 then [Event.savePeriodic (epoch + 1)] else []),
    (if (evalBody epoch st inp).2.2 = none ∧
        patience < (epoch : ℤ) - bestEpochOf (evalBody epoch st inp).2.1 then
      [Event.saveLastLR (evalBody epoch st inp).2.1.lr, Event.updateLearningRate]
    else []), ?_, ?_, ?_, ?_, ?_, ?_, ?_, ?_⟩
  · rw [epochStep_trace_eq]
    simp [List.append_assoc]
  · intro h
    rcases evalBody_event_shapes epoch st inp _ h with
      h | h | h | h | h | h | h | ⟨ks, h⟩ | h <;> simp at h
  · intro h
    rcases evalBody_event_shapes epoch st inp _ h with
      h | h | h | h | h | h | h | ⟨ks, h⟩ | h <;> simp at h
  · rcases evalBody_cases epoch st inp with ⟨-, h⟩ | ⟨-, h⟩ | ⟨-, saves, h, -⟩ <;>
      rw [h] <;> exact List.mem_cons_self _ _
  · rcases evalBody_cases epoch st inp with ⟨-, h⟩ | ⟨-, h⟩ | ⟨-, saves, h, -⟩ <;>
      rw [h] <;> exact List.mem_cons_of_mem _ (List.mem_cons_self _ _)
  · intro hE
    rw [epochStep_err] at hE
    rcases evalBody_cases epoch st inp with ⟨hN, -⟩ | ⟨hN, -⟩ | ⟨-, saves, h, -⟩
    · rw [hN] at hE
      cases hE
    · rw [hN] at hE
      cases hE
    · rw [h]
      constructor
      · refine List.mem_cons_of_mem _ (List.mem_cons_of_mem _ ?_)
        simp
      · refine List.mem_cons_of_mem _ (List.mem_cons_of_mem _ ?_)
        simp
  · intro ks hks
    rw [epochStep_trace_eq] at hks
    simp only [List.mem_append, List.mem_cons] at hks
    rcases hks with h | h
    · exact absurd h
        (saveBest_not_mem_batch epoch inp.iterStart inp.batchTimes steps ks)
    rcases h with h | h
    · by_cases hc : (epoch + 1) % 10 = 0
      · rw [if_pos hc] at h
        have h := List.mem_singleton.mp h
        cases h
      · rw [if_neg hc] at h
        cases h
    rcases h with h | h
    · rcases h with h | h | h | h
      · cases h
      · exact h
      · cases h
      · cases h
    · by_cases hc : (evalBody epoch st inp).2.2 = none ∧
          patience < (epoch : ℤ) - bestEpochOf (evalBody epoch st inp).2.1
      · rw [if_pos hc] at h
        simp only [List.mem_cons, List.not_mem_nil, or_false] at h
        rcases h with h | h <;> cases h
      · rw [if_neg hc] at h
        cases h
  · intro hE
    rw [epochStep_err] at hE
    rw [if_neg]
    intro hc
    exact hE hc.1

/-- C10: `parse_args` defines no `eval_dataset` argument, and for a run
whose configuration does not define the attribute, the evaluation-summary
print raises the attribute error at the end of the evaluation pass (after
the best-model update), so the best-so-far logging, the best-checkpoint
save and the learning-rate decay of that epoch are unreachable. -/
theorem C10_missing_eval_dataset (patience : ℤ) (decay : ℚ → ℚ) (epoch : ℕ)
    (st : TrainerState) (steps : ℕ) (inp : EpochInput)
    (hok : ∀ b ∈ inp.samples, b = true) (hattr : inp.evalDataset = none) :
    "eval_dataset" ∉ cmdArgKeys ∧
    (epochStep patience decay epoch st steps inp).err =
      some (Err.attributeError "eval_dataset") ∧
    Event.updateBest ∈ (epochStep patience decay epoch st steps inp).trace ∧
    Event.infoBest ∉ (epochStep patience decay epoch st steps inp).trace ∧
    (∀ ks, Event.saveBest ks ∉
      (epochStep patience decay epoch st steps inp).trace) ∧
    (∀ q, Event.saveLastLR q ∉
      (epochStep patience decay epoch st steps inp).trace) ∧
    Event.updateLearningRate ∉
      (epochStep patience decay epoch st steps inp).trace := by
  obtain ⟨hN, hB⟩ := evalBody_attrError epoch st inp hok hattr
  have hTrace := epochStep_trace_eq patience decay epoch st steps inp
  rw [hN] at hTrace
  have hcond : ¬(some (Err.attributeError "eval_dataset") = (none : Option Err) ∧
      patience < (epoch : ℤ) - bestEpochOf (evalBody epoch st inp).2.1) := by
    rintro ⟨h, -⟩
    cases h
  rw [if_neg hcond, List.append_nil] at hTrace
  refine ⟨by decide, ?_, ?_, ?_, ?_, ?_, ?_⟩
  · rw [epochStep_err, hN]
  · rw [hTrace, hB]
    simp
  · rw [hTrace, hB]
    intro h
    simp only [List.mem_append, List.mem_cons] at h
    rcases h with h | h
    · rcases batchLoop_events epoch inp.iterStart inp.batchTimes steps _ h with
        h | h | h | ⟨a, b, h⟩ <;> simp at h
    rcases h with h | h
    · by_cases hc : (epoch + 1) % 10 = 0
      · rw [if_pos hc] at h
        have h := List.mem_singleton.mp h
        cases h
      · rw [if_neg hc] at h
        cases h
    · rcases h with h | h
      · cases h
      rcases h with h | h
      · rcases h with h | h | h | h | h
        · cases h
        · cases h
        · rcases evalLoop_events inp.samples _ h with h | h <;> cases h
        · cases h
        · cases h
      · rcases h with h | h
        · cases h
        · cases h
  · intro ks
    rw [hTrace, hB]
    intro h
    simp only [List.mem_append, List.mem_cons] at h
    rcases h with h | h
    · exact absurd h
        (saveBest_not_mem_batch epoch inp.iterStart inp.batchTimes steps ks)
    rcases h with h | h
    · by_cases hc : (epoch + 1) % 10 = 0
      · rw [if_pos hc] at h
        have h := List.mem_singleton.mp h
        cases h
      · rw [if_neg hc] at h
        cases h
    · rcases h with h | h
      · cases h
      rcases h with h | h
      · rcases h with h | h | h | h | h
        · cases h
        · cases h
        · rcases evalLoop_events inp.samples _ h with h | h <;> cases h
        · cases h
        · cases h
      · rcases h with h | h
        · cases h
        · cases h
  · intro q
    rw [hTrace, hB]
    intro h
    simp only [List.mem_append, List.mem_cons] at h
    rcases h with h | h
    · exact absurd h
        (saveLastLR_not_mem_batch epoch inp.iterStart inp.batchTimes steps q)
    rcases h with h | h
    · by_cases hc : (epoch + 1) % 10 = 0
      · rw [if_pos hc] at h
        have h := List.mem_singleton.mp h
        cases h
      · rw [if_neg hc] at h
        cases h
    · rcases h with h | h
      · cases h
      rcases h with h | h
      · rcases h with h | h | h | h | h
        · cases h
        · cases h
        · rcases evalLoop_events inp.samples _ h with h | h <;> cases h
        · cases h
        · cases h
      · rcases h with h | h
        · cases h
        · cases h
  · rw [hTrace, hB]
    intro h
    simp only [List.mem_append, List.mem_cons] at h
    rcases h with h | h
    · exact absurd h
        (updateLR_not_mem_batch epoch inp.iterStart inp.batchTimes steps)
    rcases h with h | h
    · by_cases hc : (epoch + 1) % 10 = 0
      · rw [if_pos hc] at h
        have h := List.mem_singleton.mp h
        cases h
      · rw [if_neg hc] at h
        cases h
    · rcases h with h | h
      · cases h
      rcases h with h | h
      · rcases h with h | h | h | h | h
        · cases h
        · cases h
        · rcases evalLoop_events inp.samples _ h with h | h <;> cases h
        · cases h
        · cases h
      · rcases h with h | h
        · cases h
        · cases h

/-- Witness for C10 at a concrete input whose configuration lacks
`eval_dataset`. -/
theorem C10_missing_eval_dataset_witness :
    ((∀ b ∈ ([true] : List Bool), b = true) ∧
      (none : Option String) = none) ∧
    ("eval_dataset" ∉ cmdArgKeys ∧
    (epochStep 0 (fun q => q) 2 priorState 0
        ⟨0, [], [true], [("psnr", 31)], none⟩).err =
      some (Err.attributeError "eval_dataset") ∧
    Event.updateBest ∈ (epochStep 0 (fun q => q) 2 priorState 0
        ⟨0, [], [true], [("psnr", 31)], none⟩).trace ∧
    Event.infoBest ∉ (epochStep 0 (fun q => q) 2 priorState 0
        ⟨0, [], [true], [("psnr", 31)], none⟩).trace ∧
    (∀ ks, Event.saveBest ks ∉
      (epochStep 0 (fun q => q) 2 priorState 0
        ⟨0, [], [true], [("psnr", 31)], none⟩).trace) ∧
    (∀ q, Event.saveLastLR q ∉
      (epochStep 0 (fun q => q) 2 priorState 0
        ⟨0, [], [true], [("psnr", 31)], none⟩).trace) ∧
    Event.updateLearningRate ∉
      (epochStep 0 (fun q => q) 2 priorState 0
        ⟨0, [], [true], [("psnr", 31)], none⟩).trace) :=
  ⟨⟨by decide, rfl⟩,
    C10_missing_eval_dataset 0 (fun q => q) 2 priorState 0
      ⟨0, [], [true], [("psnr", 31)], none⟩ (by decide) rfl⟩

/-- C9: along any run of evaluation snapshots fed to
`update_best_eval_result` at successive epochs starting with
`best_epoch` at most the current epoch, the best epoch never decreases,
never exceeds the current epoch, and (once a best snapshot exists)
changes only when some tracked metric strictly improves in its
configured direction, in which case it becomes the current epoch. -/
theorem C9_best_epoch_invariants (st0 : TrainerState) (e0 : ℤ)
    (snaps : List Metrics) (h0 : bestEpochOf st0 ≤ e0) :
    (∀ p ∈ List.scanl runStep (st0, e0) snaps, bestEpochOf p.1 ≤ p.2) ∧
    List.Chain' (fun p q => bestEpochOf p.1 ≤ bestEpochOf q.1)
      (List.scanl runStep (st0, e0) snaps) ∧
    (∀ x ∈ (List.scanl runStep (st0, e0) snaps).zip
        (((List.scanl runStep (st0, e0) snaps).tail).zip snaps),
      bestEpochOf x.2.1.1 ≠ bestEpochOf x.1.1 →
        x.1.1.best.isSome = true →
          improvedAny (bestEvalOf x.1.1) x.2.2 = true ∧
            bestEpochOf x.2.1.1 = x.1.2) := by
  induction snaps generalizing st0 e0 with
  | nil =>
      refine ⟨?_, ?_, ?_⟩
      · intro p hp
        simp only [List.scanl_nil, List.mem_singleton] at hp
        subst hp
        exact h0
      · simp
      · intro x hx
        simp at hx
  | cons s rest ih =>
      obtain ⟨hmono, hle⟩ := bestEpochOf_update_ge st0 e0 s h0
      have h1 : bestEpochOf (update_best_eval_result st0 e0 s) ≤ e0 + 1 := by
        omega
      obtain ⟨ihA, ihB, ihC⟩ := ih (update_best_eval_result st0 e0 s) (e0 + 1) h1
      have hstep : runStep (st0, e0) s = (update_best_eval_result st0 e0 s, e0 + 1) :=
        rfl
      have hL : List.scanl runStep (update_best_eval_result st0 e0 s, e0 + 1) rest =
          (update_best_eval_result st0 e0 s, e0 + 1) ::
            (List.scanl runStep (update_best_eval_result st0 e0 s, e0 + 1) rest).tail := by
        cases rest <;> simp [List.scanl]
      refine ⟨?_, ?_, ?_⟩
      · intro p hp
        simp only [List.scanl_cons, List.singleton_append] at hp
        rw [hstep] at hp
        rcases List.mem_cons.mp hp with h | h
        · rw [h]
          exact h0
        · exact ihA p h
      · simp only [List.scanl_cons, List.singleton_append]
        rw [hstep]
        refine List.chain'_cons'.mpr ⟨?_, ihB⟩
        intro q hq
        rw [hL] at hq
        simp only [List.head?_cons, Option.mem_def, Option.some_inj] at hq
        rw [← hq]
        exact hmono
      · intro x hx
        simp only [List.scanl_cons, List.singleton_append] at hx
        rw [hstep, List.tail_cons] at hx
        rw [hL] at hx
        simp only [List.zip_cons_cons, List.mem_cons] at hx
        rcases hx with hx | hx
        · subst hx
          intro hne hsome
          rcases update_best_step st0 e0 s with ⟨-, heq⟩ | ⟨he, himp⟩
          · exact absurd heq hne
          · exact ⟨himp hsome, he⟩
        · rw [← hL] at hx
          exact ihC x hx

/-- Witness for C9 at a concrete prior state and a single improving
snapshot. -/
theorem C9_best_epoch_invariants_witness :
    bestEpochOf priorState ≤ 5 ∧
    ((∀ p ∈ List.scanl runStep (priorState, 5) [[("psnr", 30)]],
        bestEpochOf p.1 ≤ p.2) ∧
    List.Chain' (fun p q => bestEpochOf p.1 ≤ bestEpochOf q.1)
      (List.scanl runStep (priorState, 5) [[("psnr", 30)]]) ∧
    (∀ x ∈ (List.scanl runStep (priorState, 5) [[("psnr", 30)]]).zip
        (((List.scanl runStep (priorState, 5) [[("psnr", 30)]]).tail).zip
          [[("psnr", 30)]]),
      bestEpochOf x.2.1.1 ≠ bestEpochOf x.1.1 →
        x.1.1.best.isSome = true →
          improvedAny (bestEvalOf x.1.1) x.2.2 = true ∧
            bestEpochOf x.2.1.1 = x.1.2)) :=
  ⟨by decide, C9_best_epoch_invariants priorState 5 [[("psnr", 30)]] (by decide)⟩

end ProSR
